import Mathlib

/-!
Verification of the smssing service (src/src/index.js): the in-memory
verification-code store (issue / verify / sweep), the 6-digit code
generation, the WhatsApp recipient normalization, and the bearer-token
gate. JavaScript `Map` state is modelled as an association list with
JS-Map-faithful get/set/delete (at most one binding per key is an
invariant proved below, not assumed by the operations). Time is an
explicit `now : Nat` parameter (milliseconds, as `Date.now()`), and
`Math.random()` is a parameter `r : ℚ` with `0 ≤ r < 1` (every IEEE
double in that range is rational).
-/

namespace Smssing

/-- A stored verification entry: `{ code, expiresAt }` (index.js line 59). -/
structure Entry where
  code : String
  expiresAt : Nat
  deriving DecidableEq

/-- The `verificationCodes` map `phone -> { code, expiresAt }` (line 31),
modelled as an association list in insertion order. -/
abbrev Store := List (String × Entry)

/-- `Map.prototype.get`: first binding for the key, if any. -/
def mapGet : Store → String → Option Entry
  | [], _ => none
  | (k0, v0) :: rest, k => if k0 = k then some v0 else mapGet rest k

/-- `Map.prototype.set`: replace the existing binding in place, else append. -/
def mapSet : Store → String → Entry → Store
  | [], k, v => [(k, v)]
  | (k0, v0) :: rest, k, v =>
    if k0 = k then (k, v) :: rest else (k0, v0) :: mapSet rest k v

/-- `Map.prototype.delete`: remove the binding for the key. -/
def mapDelete : Store → String → Store
  | [], _ => []
  | (k0, v0) :: rest, k => if k0 = k then rest else (k0, v0) :: mapDelete rest k

/-- The keys of the store, in order. -/
def keys (m : Store) : List String := m.map Prod.fst

/-- Well-formedness: at most one binding per phone number (a JS `Map`
guarantees this by construction). -/
abbrev WF (m : Store) : Prop := (keys m).Nodup

/-- The sweep callback (lines 34–41): delete every entry with
`data.expiresAt < now`. -/
def sweep (m : Store) (now : Nat) : Store :=
  m.filter fun kv => !decide (kv.2.expiresAt < now)

/-- `Math.floor(100000 + Math.random() * 900000)` (line 55), with the
random draw `r` passed in. -/
def genCode (r : ℚ) : Nat := (100000 + r * 900000 : ℚ).floor.toNat

/-- Core of the `POST /api/auth/send-code` handler (lines 55–59): generate
the code, store `{ code, expiresAt: now + 5*60*1000 }`, return the code. -/
def issue (m : Store) (now : Nat) (phoneNumber : String) (r : ℚ) :
    String × Store :=
  let code := Nat.repr (genCode r)
  let expiresAt := now + 5 * 60 * 1000
  (code, mapSet m phoneNumber { code := code, expiresAt := expiresAt })

/-- Outcome of the `POST /api/auth/verify-code` handler. -/
inductive VerifyResult where
  | success
  | invalidOrExpired
  | incorrectCode
  deriving DecidableEq

/-- Core of the `POST /api/auth/verify-code` handler (lines 91–104):
look up, check expiry, compare codes, delete on match. -/
def verify (m : Store) (now : Nat) (phoneNumber code : String) :
    VerifyResult × Store :=
  match mapGet m phoneNumber with
  | none => (.invalidOrExpired, m)
  | some stored =>
    if stored.expiresAt < now then (.invalidOrExpired, m)
    else if stored.code ≠ code then (.incorrectCode, m)
    else (.success, mapDelete m phoneNumber)

/-! ### Basic lemmas about the map operations -/

theorem mapGet_eq_none_of_not_mem {m : Store} {k : String}
    (h : k ∉ keys m) : mapGet m k = none := by
  induction m with
  | nil => rfl
  | cons kv rest ih =>
    obtain ⟨k0, v0⟩ := kv
    simp only [keys, List.map_cons, List.mem_cons, not_or] at h
    have hne : ¬ k0 = k := fun hk => h.1 hk.symm
    simp only [mapGet, if_neg hne]
    exact ih (by simpa [keys] using h.2)

theorem mapGet_set_self (m : Store) (k : String) (v : Entry) :
    mapGet (mapSet m k v) k = some v := by
  induction m with
  | nil => simp [mapSet, mapGet]
  | cons kv rest ih =>
    obtain ⟨k0, v0⟩ := kv
    by_cases h : k0 = k
    · simp [mapSet, mapGet, h]
    · simp [mapSet, mapGet, h, ih]

theorem mapGet_set_ne (m : Store) {k q : String} (v : Entry) (h : q ≠ k) :
    mapGet (mapSet m k v) q = mapGet m q := by
  have hkq : ¬ k = q := fun hk => h hk.symm
  induction m with
  | nil => simp [mapSet, mapGet, hkq]
  | cons kv rest ih =>
    obtain ⟨k0, v0⟩ := kv
    by_cases h0 : k0 = k
    · subst h0
      simp [mapSet, mapGet, hkq]
    · simp [mapSet, mapGet, h0, ih]

theorem mapGet_delete_self {m : Store} (hWF : WF m) (k : String) :
    mapGet (mapDelete m k) k = none := by
  induction m with
  | nil => rfl
  | cons kv rest ih =>
    obtain ⟨k0, v0⟩ := kv
    have hWF' : WF rest := (List.nodup_cons.mp hWF).2
    by_cases h : k0 = k
    · subst h
      simp only [mapDelete, if_pos rfl]
      exact mapGet_eq_none_of_not_mem (List.nodup_cons.mp hWF).1
    · simp [mapDelete, mapGet, h, ih hWF']

theorem mapGet_delete_ne (m : Store) {k q : String} (h : q ≠ k) :
    mapGet (mapDelete m k) q = mapGet m q := by
  have hkq : ¬ k = q := fun hk => h hk.symm
  induction m with
  | nil => rfl
  | cons kv rest ih =>
    obtain ⟨k0, v0⟩ := kv
    by_cases h0 : k0 = k
    · subst h0
      simp [mapDelete, mapGet, hkq]
    · simp [mapDelete, mapGet, h0, ih]

theorem keys_mapSet (m : Store) (k : String) (v : Entry) :
    keys (mapSet m k v) = if k ∈ keys m then keys m else keys m ++ [k] := by
  induction m with
  | nil => simp [mapSet, keys]
  | cons kv rest ih =>
    obtain ⟨k0, v0⟩ := kv
    by_cases h : k0 = k
    · subst h
      simp [mapSet, keys]
    · have hkq : ¬ k = k0 := fun hk => h hk.symm
      simp only [mapSet, if_neg h, keys, List.map_cons] at ih ⊢
      rw [ih]
      by_cases hm : k ∈ List.map Prod.fst rest
      · simp [hm, hkq]
      · simp [hm, hkq]

theorem WF_mapSet {m : Store} (hWF : WF m) (k : String) (v : Entry) :
    WF (mapSet m k v) := by
  unfold WF
  rw [keys_mapSet]
  by_cases h : k ∈ keys m
  · simpa [h] using hWF
  · simp only [h, if_false]
    refine List.Nodup.append hWF (List.nodup_singleton k) ?_
    intro a ha hamem
    rw [List.mem_singleton] at hamem
    subst hamem
    exact h ha

theorem mapDelete_sublist (m : Store) (k : String) :
    (mapDelete m k).Sublist m := by
  induction m with
  | nil => simp [mapDelete]
  | cons kv rest ih =>
    obtain ⟨k0, v0⟩ := kv
    by_cases h : k0 = k
    · simp only [mapDelete, if_pos h]
      exact List.sublist_cons_self (k0, v0) rest
    · simp only [mapDelete, if_neg h]
      exact List.Sublist.cons₂ (k0, v0) ih

theorem WF_mapDelete {m : Store} (hWF : WF m) (k : String) :
    WF (mapDelete m k) :=
  List.Nodup.sublist (List.Sublist.map Prod.fst (mapDelete_sublist m k)) hWF

theorem sweep_sublist (m : Store) (now : Nat) : (sweep m now).Sublist m :=
  List.filter_sublist m

theorem WF_sweep {m : Store} (hWF : WF m) (now : Nat) : WF (sweep m now) :=
  List.Nodup.sublist (List.Sublist.map Prod.fst (sweep_sublist m now)) hWF

theorem mem_sweep (m : Store) (now : Nat) (k : String) (e : Entry) :
    (k, e) ∈ sweep m now ↔ (k, e) ∈ m ∧ ¬ e.expiresAt < now := by
  simp [sweep, List.mem_filter]

theorem issue_fst (m : Store) (now : Nat) (p : String) (r : ℚ) :
    (issue m now p r).1 = Nat.repr (genCode r) := rfl

theorem issue_snd (m : Store) (now : Nat) (p : String) (r : ℚ) :
    (issue m now p r).2
      = mapSet m p ⟨Nat.repr (genCode r), now + 5 * 60 * 1000⟩ := rfl

theorem mapGet_sweep {m : Store} (hWF : WF m) (now : Nat) (k : String) :
    mapGet (sweep m now) k =
      match mapGet m k with
      | none => none
      | some e => if e.expiresAt < now then none else some e := by
  induction m with
  | nil => rfl
  | cons kv rest ih =>
    obtain ⟨k0, v0⟩ := kv
    have hWF' : WF rest := (List.nodup_cons.mp hWF).2
    have hnotmem : k0 ∉ keys rest := (List.nodup_cons.mp hWF).1
    by_cases h : k0 = k
    · subst h
      have hnone : mapGet (sweep rest now) k0 = none :=
        mapGet_eq_none_of_not_mem fun hmem => hnotmem
          (List.Sublist.subset
            (List.Sublist.map Prod.fst (sweep_sublist rest now)) hmem)
      by_cases hexp : v0.expiresAt < now
      · simpa [sweep, List.filter_cons, hexp, mapGet] using hnone
      · simp [sweep, List.filter_cons, hexp, mapGet]
    · by_cases hexp : v0.expiresAt < now
      · simpa [sweep, List.filter_cons, hexp, mapGet, h] using ih hWF'
      · simpa [sweep, List.filter_cons, hexp, mapGet, h] using ih hWF'

theorem mapGet_sweep_none {m : Store} (hWF : WF m) (now : Nat) {k : String}
    (h : mapGet m k = none) : mapGet (sweep m now) k = none := by
  rw [mapGet_sweep hWF now k, h]

theorem mapGet_sweep_some {m : Store} (hWF : WF m) (now : Nat) {k : String}
    {e : Entry} (h : mapGet m k = some e) :
    mapGet (sweep m now) k = if e.expiresAt < now then none else some e := by
  rw [mapGet_sweep hWF now k, h]

/-! ### WhatsApp recipient normalization (index.js lines 62, 118, 146) -/

/-- JS `String.prototype.startsWith`: the argument is a prefix of the
receiver's character sequence. -/
def jsStartsWith (s p : String) : Bool := p.data.isPrefixOf s.data

/-- `to.startsWith('whatsapp:') ? to : 'whatsapp:' + to` (lines 62, 118, 146). -/
def formatTo (t : String) : String :=
  if jsStartsWith t "whatsapp:" then t else "whatsapp:" ++ t

theorem isPrefixOf_append (l t : List Char) : l.isPrefixOf (l ++ t) = true := by
  induction l with
  | nil => simp [List.isPrefixOf]
  | cons a l ih => simp [List.isPrefixOf, ih]

/-! ### Bearer-token gate (`authenticateToken`, lines 167–182) -/

/-- Outcome of the `authenticateToken` middleware for a generic payload
type `U` (the claim embedded in a valid token): a 401 response, a 403
response, or `req.user` is set and the guarded handler runs. -/
inductive AuthResult (U : Type) where
  | unauthenticated
  | forbidden
  | proceed (user : U)
  deriving DecidableEq

/-- HTTP status produced by the gate itself (`none` when it calls `next()`). -/
def authStatus {U : Type} : AuthResult U → Option Nat
  | .unauthenticated => some 401
  | .forbidden => some 403
  | .proceed _ => none

/-- JS `String.prototype.split` with a single-character separator, on the
character sequence: splits into the (possibly empty) pieces between
separators. -/
def jsSplit (sep : Char) : List Char → List (List Char)
  | [] => [[]]
  | c :: cs =>
    if c = sep then [] :: jsSplit sep cs
    else
      match jsSplit sep cs with
      | [] => [[c]]
      | piece :: rest => (c :: piece) :: rest

/-- `const token = authHeader && authHeader.split(' ')[1]` followed by the
falsiness test `if (!token)` (lines 168–171): `none` exactly when the
token is missing or empty (`undefined`, `''`, and a missing header are
all falsy). -/
def bearerToken (authHeader : Option String) : Option String :=
  match authHeader with
  | none => none
  | some h =>
    if h = "" then none
    else
      match (jsSplit ' ' h.data).get? 1 with
      | none => none
      | some tok => if tok = [] then none else some tok.asString

/-- The middleware (lines 167–182), with `jwt.verify` against the
process-wide secret abstracted as the external Token Verifier `verifyTok`
(`none` = verification error, i.e. invalid signature or expired). -/
def authenticateToken {U : Type} (verifyTok : String → Option U)
    (authHeader : Option String) : AuthResult U :=
  match bearerToken authHeader with
  | none => .unauthenticated
  | some tok =>
    match verifyTok tok with
    | none => .forbidden
    | some user => .proceed user

/-! ### Event sequences over the store -/

/-- One request or timer event touching `verificationCodes`. -/
inductive Op where
  | issue (now : Nat) (p : String) (r : ℚ)
  | verify (now : Nat) (p c : String)
  | sweep (now : Nat)

/-- Effect of one event on the store. -/
def applyOp (m : Store) : Op → Store
  | .issue now p r => (issue m now p r).2
  | .verify now p c => (verify m now p c).2
  | .sweep now => sweep m now

theorem WF_applyOp {m : Store} (hWF : WF m) (op : Op) : WF (applyOp m op) := by
  cases op with
  | issue now p r => exact WF_mapSet hWF p _
  | verify now p c =>
    simp only [applyOp, verify]
    cases hget : mapGet m p with
    | none => exact hWF
    | some stored =>
      by_cases hexp : stored.expiresAt < now
      · simpa [hexp] using hWF
      · by_cases hc : stored.code ≠ c
        · simpa [hexp, hc] using hWF
        · simpa [hexp, hc] using WF_mapDelete hWF p
  | sweep now => exact WF_sweep hWF now

/-! ### The generated code is a 6-digit number -/

theorem toDigitsCore_length_lower (f : Nat) :
    ∀ n e : Nat, 10 ^ e ≤ n → n < f →
      e + 1 ≤ (Nat.toDigitsCore 10 f n []).length := by
  induction f with
  | zero =>
    intro n e he hn
    omega
  | succ f ih =>
    intro n e he hn
    by_cases hdiv : n / 10 = 0
    · have hn10 : n < 10 := by omega
      have he0 : e = 0 := by
        by_contra hne
        have : 10 ≤ 10 ^ e := by
          calc 10 = 10 ^ 1 := (pow_one 10).symm
          _ ≤ 10 ^ e := Nat.pow_le_pow_right (by omega) (by omega)
        omega
      subst he0
      simp [Nat.toDigitsCore, hdiv]
    · have hrec : (Nat.toDigitsCore 10 (f + 1) n []).length
          = (Nat.toDigitsCore 10 f (n / 10) []).length + 1 := by
        simp only [Nat.toDigitsCore, hdiv, if_false]
        exact Nat.toDigitsCore_lens_eq 10 f (n / 10) _ []
      cases e with
      | zero => omega
      | succ e =>
        have hstep : 10 ^ e ≤ n / 10 := by
          rw [Nat.le_div_iff_mul_le (by omega)]
          calc 10 ^ e * 10 = 10 ^ (e + 1) := (pow_succ 10 e).symm
          _ ≤ n := he
        have hlt : n / 10 < f := by
          have h1 : 0 < n := lt_of_lt_of_le (pow_pos (by omega) (e + 1)) he
          have h2 : n / 10 < n := Nat.div_lt_self h1 (by omega)
          omega
        have := ih (n / 10) e hstep hlt
        omega

theorem repr_length_six {n : Nat} (h1 : 100000 ≤ n) (h2 : n ≤ 999999) :
    (Nat.repr n).length = 6 := by
  have hub : (Nat.repr n).length ≤ 6 := Nat.repr_length n 6 (by omega) (by omega)
  have hlb : 6 ≤ (Nat.repr n).length := by
    have h := toDigitsCore_length_lower (n + 1) n 5 (by norm_num; omega) (by omega)
    simpa [Nat.repr, Nat.toDigits, String.length, List.asString] using h
  omega

theorem genCode_bounds {r : ℚ} (h0 : 0 ≤ r) (h1 : r < 1) :
    100000 ≤ genCode r ∧ genCode r ≤ 999999 := by
  set q : ℚ := 100000 + r * 900000 with hq
  have hql : (100000 : ℚ) ≤ q := by
    have : (0 : ℚ) ≤ r * 900000 := by positivity
    linarith
  have hqu : q < 1000000 := by
    have : r * 900000 < 900000 := by nlinarith
    linarith
  have hbridge : ⌊q⌋ = q.floor := by
    rw [Rat.floor_def, ← Rat.floor_def']
  have hfl : (100000 : ℤ) ≤ q.floor := by
    rw [← hbridge]
    exact Int.le_floor.mpr (by exact_mod_cast hql)
  have hfu : q.floor ≤ 999999 := by
    rw [← hbridge]
    have : ⌊q⌋ < 1000000 := Int.floor_lt.mpr (by exact_mod_cast hqu)
    omega
  unfold genCode
  rw [← hq]
  omega

/-! ### Unfolding helpers for `verify` -/

theorem verify_eq_none {m : Store} {now : Nat} {p c : String}
    (h : mapGet m p = none) : verify m now p c = (.invalidOrExpired, m) := by
  unfold verify
  rw [h]

theorem verify_eq_some {m : Store} {now : Nat} {p c : String} {e : Entry}
    (h : mapGet m p = some e) :
    verify m now p c =
      if e.expiresAt < now then (.invalidOrExpired, m)
      else if e.code ≠ c then (.incorrectCode, m)
      else (.success, mapDelete m p) := by
  unfold verify
  rw [h]

theorem verify_snd_eq_or (m : Store) (now : Nat) (p s : String) :
    (verify m now p s).2 = m ∨ (verify m now p s).2 = mapDelete m p := by
  unfold verify
  cases mapGet m p with
  | none => exact Or.inl rfl
  | some stored =>
    by_cases hexp : stored.expiresAt < now
    · simp [hexp]
    · by_cases hc : stored.code ≠ s
      · simp [hexp, hc]
      · simp [hexp, hc]

theorem mem_mapSet {m : Store} {k0 : String} {v : Entry} {k : String} {e : Entry}
    (h : (k, e) ∈ mapSet m k0 v) : (k, e) ∈ m ∨ (k = k0 ∧ e = v) := by
  induction m with
  | nil =>
    right
    simpa [mapSet] using h
  | cons kv rest ih =>
    obtain ⟨k1, v1⟩ := kv
    by_cases h1 : k1 = k0
    · rw [mapSet, if_pos h1] at h
      rcases List.mem_cons.mp h with heq | hmem
      · right
        simpa using heq
      · exact Or.inl (List.mem_cons_of_mem _ hmem)
    · rw [mapSet, if_neg h1] at h
      rcases List.mem_cons.mp h with heq | hmem
      · exact Or.inl (heq ▸ List.mem_cons_self _ _)
      · rcases ih hmem with hm | hkv
        · exact Or.inl (List.mem_cons_of_mem _ hm)
        · exact Or.inr hkv

theorem WF_foldl (ops : List Op) :
    ∀ m : Store, WF m → WF (ops.foldl applyOp m) := by
  induction ops with
  | nil => exact fun m h => h
  | cons op ops ih => exact fun m h => ih _ (WF_applyOp h op)

/-! ### The claims -/

/-- C1: after `issue m now p r` stores a code for `p`, a `verify` at any
`now1` within the 5-minute window with the returned code succeeds and
deletes the entry, and a second `verify` with the same code at any `now2`
(with no intervening `issue`) fails with `InvalidOrExpired`: the code
cannot be replayed. -/
theorem issue_verify_single_use (m : Store) (hWF : WF m) (now now1 now2 : Nat)
    (p : String) (r : ℚ) (hlive : ¬ now + 5 * 60 * 1000 < now1) :
    (verify (issue m now p r).2 now1 p (issue m now p r).1).1 = .success ∧
    mapGet (verify (issue m now p r).2 now1 p (issue m now p r).1).2 p = none ∧
    (verify (verify (issue m now p r).2 now1 p (issue m now p r).1).2 now2 p
        (issue m now p r).1).1 = .invalidOrExpired := by
  have hget : mapGet (issue m now p r).2 p
      = some ⟨Nat.repr (genCode r), now + 5 * 60 * 1000⟩ := mapGet_set_self m p _
  have hWF1 : WF (issue m now p r).2 := WF_mapSet hWF p _
  have hv : verify (issue m now p r).2 now1 p (issue m now p r).1
      = (.success, mapDelete (issue m now p r).2 p) := by
    rw [verify_eq_some hget]
    simp [hlive, issue_fst]
  have hgone : mapGet (mapDelete (issue m now p r).2 p) p = none :=
    mapGet_delete_self hWF1 p
  refine ⟨by rw [hv], ?_, ?_⟩
  · rw [hv]
    exact hgone
  · rw [hv, verify_eq_none hgone]

/-- C1 witness at a concrete input. -/
theorem issue_verify_single_use_witness :
    (verify (issue [] 0 "p" 0).2 10 "p" (issue [] 0 "p" 0).1).1 = .success ∧
    mapGet (verify (issue [] 0 "p" 0).2 10 "p" (issue [] 0 "p" 0).1).2 "p"
      = none ∧
    (verify (verify (issue [] 0 "p" 0).2 10 "p" (issue [] 0 "p" 0).1).2 20 "p"
        (issue [] 0 "p" 0).1).1 = .invalidOrExpired :=
  issue_verify_single_use [] (by decide) 0 10 20 "p" 0 (by decide)

/-- C2: a `verify` with a wrong code on a live entry fails with
`IncorrectCode` and leaves the whole store unchanged, so a later correct
`verify` within the window still succeeds. -/
theorem verify_incorrect_preserves (m : Store) (now now2 : Nat) (p s : String)
    (e : Entry) (hget : mapGet m p = some e) (hexp : ¬ e.expiresAt < now)
    (hne : s ≠ e.code) (hexp2 : ¬ e.expiresAt < now2) :
    verify m now p s = (.incorrectCode, m) ∧
    (verify m now2 p e.code).1 = .success := by
  constructor
  · rw [verify_eq_some hget]
    have : e.code ≠ s := fun hc => hne hc.symm
    simp [hexp, this]
  · rw [verify_eq_some hget]
    simp [hexp2]

/-- C2 witness at a concrete input. -/
theorem verify_incorrect_preserves_witness :
    verify [("p", ⟨"111111", 100⟩)] 50 "p" "222222"
      = (.incorrectCode, [("p", ⟨"111111", 100⟩)]) ∧
    (verify [("p", ⟨"111111", 100⟩)] 60 "p" (Entry.mk "111111" 100).code).1
      = .success :=
  verify_incorrect_preserves [("p", ⟨"111111", 100⟩)] 50 60 "p" "222222"
    ⟨"111111", 100⟩ (by decide) (by decide) (by decide) (by decide)

/-- C3: when the store has no entry for `p`, or its entry is expired at
the time of the call, `verify` returns `InvalidOrExpired` for every
supplied code and leaves the store unchanged — and the same holds after a
sweep at any time `t`, so correctness does not depend on sweep. -/
theorem verify_invalid_or_expired (m : Store) (hWF : WF m) (now t : Nat)
    (p s : String)
    (h : mapGet m p = none ∨ ∃ e, mapGet m p = some e ∧ e.expiresAt < now) :
    verify m now p s = (.invalidOrExpired, m) ∧
    (verify (sweep m t) now p s).1 = .invalidOrExpired := by
  obtain hnone | ⟨e, hget, hexp⟩ := h
  · constructor
    · exact verify_eq_none hnone
    · have hs : mapGet (sweep m t) p = none := by
        rw [mapGet_sweep hWF t p, hnone]
      rw [verify_eq_none hs]
  · constructor
    · rw [verify_eq_some hget]
      simp [hexp]
    · have hs := mapGet_sweep_some hWF t hget
      by_cases ht : e.expiresAt < t
      · rw [if_pos ht] at hs
        rw [verify_eq_none hs]
      · rw [if_neg ht] at hs
        rw [verify_eq_some hs]
        simp [hexp]

/-- C3 witness at a concrete input. -/
theorem verify_invalid_or_expired_witness :
    verify [("p", ⟨"111111", 10⟩)] 50 "p" "111111"
      = (.invalidOrExpired, [("p", ⟨"111111", 10⟩)]) ∧
    (verify (sweep [("p", ⟨"111111", 10⟩)] 30) 50 "p" "111111").1
      = .invalidOrExpired :=
  verify_invalid_or_expired [("p", ⟨"111111", 10⟩)] (by decide) 50 30 "p"
    "111111" (Or.inr ⟨⟨"111111", 10⟩, by decide, by decide⟩)

/-- C4: every store reachable from the empty map by issue/verify/sweep
events has at most one entry per phone number, and a second `issue` for
the same number overwrites the first: with distinct returned codes, the
first code now fails with `IncorrectCode` and only the second verifies. -/
theorem store_invariant_and_reissue (m : Store)
    (now1 now2 now3 : Nat) (p : String) (r1 r2 : ℚ)
    (hne : (issue m now1 p r1).1 ≠ (issue (issue m now1 p r1).2 now2 p r2).1)
    (hlive : ¬ now2 + 5 * 60 * 1000 < now3) :
    (∀ ops : List Op, ∀ q : String,
      (keys (ops.foldl applyOp [])).count q ≤ 1) ∧
    (verify (issue (issue m now1 p r1).2 now2 p r2).2 now3 p
        (issue m now1 p r1).1).1 = .incorrectCode ∧
    (verify (issue (issue m now1 p r1).2 now2 p r2).2 now3 p
        (issue (issue m now1 p r1).2 now2 p r2).1).1 = .success := by
  refine ⟨?_, ?_, ?_⟩
  · intro ops q
    have hnodup : WF (ops.foldl applyOp []) := WF_foldl ops [] (by simp [WF, keys])
    exact List.nodup_iff_count_le_one.mp hnodup q
  · have hget : mapGet (issue (issue m now1 p r1).2 now2 p r2).2 p
        = some ⟨Nat.repr (genCode r2), now2 + 5 * 60 * 1000⟩ :=
      mapGet_set_self _ p _
    rw [verify_eq_some hget]
    have hne2 : Nat.repr (genCode r2) ≠ (issue m now1 p r1).1 :=
      fun hc => hne (hc ▸ rfl)
    simp only [hlive, if_false]
    simp [hne2]
  · have hget : mapGet (issue (issue m now1 p r1).2 now2 p r2).2 p
        = some ⟨Nat.repr (genCode r2), now2 + 5 * 60 * 1000⟩ :=
      mapGet_set_self _ p _
    rw [verify_eq_some hget]
    simp [hlive, issue_fst]

/-- C4 witness at a concrete input. -/
theorem store_invariant_and_reissue_witness :
    (∀ ops : List Op, ∀ q : String,
      (keys (ops.foldl applyOp [])).count q ≤ 1) ∧
    (verify (issue (issue [] 0 "p" 0).2 5 "p" (1/2)).2 10 "p"
        (issue [] 0 "p" 0).1).1 = .incorrectCode ∧
    (verify (issue (issue [] 0 "p" 0).2 5 "p" (1/2)).2 10 "p"
        (issue (issue [] 0 "p" 0).2 5 "p" (1/2)).1).1 = .success :=
  store_invariant_and_reissue [] 0 5 10 "p" 0 (1/2)
    (by
      show Nat.repr (genCode 0) ≠ Nat.repr (genCode (1/2))
      have h1 : genCode 0 = 100000 := by
        unfold genCode
        norm_num [Rat.floor_def']
        decide
      have h2 : genCode (1/2) = 550000 := by
        unfold genCode
        norm_num [Rat.floor_def']
        decide
      rw [h1, h2]
      decide)
    (by decide)

/-- C5: one sweep at `now` keeps exactly the entries with
`¬ expiresAt < now`, each with identical phone number, code and expiry,
and removes all others; equivalently, per-key lookup after the sweep
filters out exactly the expired entry. -/
theorem sweep_removes_exactly_expired (m : Store) (hWF : WF m) (now : Nat) :
    (∀ k e, ((k, e) ∈ sweep m now ↔ (k, e) ∈ m ∧ ¬ e.expiresAt < now)) ∧
    (∀ k, mapGet (sweep m now) k =
      match mapGet m k with
      | none => none
      | some e => if e.expiresAt < now then none else some e) :=
  ⟨fun k e => mem_sweep m now k e, fun k => mapGet_sweep hWF now k⟩

/-- C5 witness at a concrete input. -/
theorem sweep_removes_exactly_expired_witness :
    (((("a", ⟨"1", 10⟩) : String × Entry) ∈
        sweep [("a", ⟨"1", 10⟩), ("b", ⟨"2", 99⟩)] 50 ↔
      (("a", ⟨"1", 10⟩) : String × Entry) ∈
        [("a", ⟨"1", 10⟩), ("b", ⟨"2", 99⟩)] ∧ ¬ (10 : Nat) < 50)) ∧
    mapGet (sweep [("a", ⟨"1", 10⟩), ("b", ⟨"2", 99⟩)] 50) "b"
      = some ⟨"2", 99⟩ := by
  have h := sweep_removes_exactly_expired
    [("a", ⟨"1", 10⟩), ("b", ⟨"2", 99⟩)] (by decide) 50
  refine ⟨h.1 "a" ⟨"1", 10⟩, ?_⟩
  rw [h.2 "b"]
  decide

/-- C6: for every rational draw `r` with `0 ≤ r < 1`, `issue` returns the
decimal string of an integer between 100000 and 999999 (hence a string of
exactly 6 digits) and stores it with expiry `now + 5 * 60 * 1000` ms. -/
theorem issue_code_range_and_expiry (m : Store) (now : Nat) (p : String)
    (r : ℚ) (h0 : 0 ≤ r) (h1 : r < 1) :
    100000 ≤ genCode r ∧ genCode r ≤ 999999 ∧
    (issue m now p r).1 = Nat.repr (genCode r) ∧
    ((issue m now p r).1).length = 6 ∧
    mapGet (issue m now p r).2 p
      = some ⟨Nat.repr (genCode r), now + 300000⟩ := by
  obtain ⟨hl, hu⟩ := genCode_bounds h0 h1
  refine ⟨hl, hu, rfl, repr_length_six hl hu, ?_⟩
  have : mapGet (issue m now p r).2 p
      = some ⟨Nat.repr (genCode r), now + 5 * 60 * 1000⟩ := mapGet_set_self m p _
  rw [this]

/-- C6 witness at a concrete input. -/
theorem issue_code_range_and_expiry_witness :
    100000 ≤ genCode 0 ∧ genCode 0 ≤ 999999 ∧
    (issue [] 7 "p" 0).1 = Nat.repr (genCode 0) ∧
    ((issue [] 7 "p" 0).1).length = 6 ∧
    mapGet (issue [] 7 "p" 0).2 "p" = some ⟨Nat.repr (genCode 0), 7 + 300000⟩ :=
  issue_code_range_and_expiry [] 7 "p" 0 (by norm_num) (by norm_num)

/-- C7: the recipient normalization used by dispatch returns `t` when `t`
already starts with the scheme marker and prepends the marker otherwise,
and it is idempotent: applying it twice equals applying it once. -/
theorem formatTo_spec (t : String) :
    (jsStartsWith t "whatsapp:" = true → formatTo t = t) ∧
    (jsStartsWith t "whatsapp:" = false → formatTo t = "whatsapp:" ++ t) ∧
    formatTo (formatTo t) = formatTo t := by
  refine ⟨fun h => by simp [formatTo, h], fun h => by simp [formatTo, h], ?_⟩
  by_cases h : jsStartsWith t "whatsapp:"
  · simp [formatTo, h]
  · have hp : jsStartsWith ("whatsapp:" ++ t) "whatsapp:" = true := by
      unfold jsStartsWith
      rw [String.data_append]
      exact isPrefixOf_append _ _
    simp [formatTo, h, hp]

/-- C7 witness at concrete inputs, one per branch. -/
theorem formatTo_spec_witness :
    formatTo "whatsapp:+15551234567" = "whatsapp:+15551234567" ∧
    formatTo "+15551234567" = "whatsapp:" ++ "+15551234567" ∧
    formatTo (formatTo "+15551234567") = formatTo "+15551234567" :=
  ⟨(formatTo_spec "whatsapp:+15551234567").1 (by decide),
   (formatTo_spec "+15551234567").2.1 (by decide),
   (formatTo_spec "+15551234567").2.2⟩

/-- C8: the gate returns 401 when no bearer token can be extracted from
the authorization header, 403 when the external verifier rejects the
extracted token, and otherwise attaches the embedded claim and proceeds. -/
theorem authenticateToken_gate {U : Type} (verifyTok : String → Option U)
    (authHeader : Option String) :
    (bearerToken authHeader = none →
      authenticateToken verifyTok authHeader = .unauthenticated ∧
      authStatus (authenticateToken verifyTok authHeader) = some 401) ∧
    (∀ tok, bearerToken authHeader = some tok → verifyTok tok = none →
      authenticateToken verifyTok authHeader = .forbidden ∧
      authStatus (authenticateToken verifyTok authHeader) = some 403) ∧
    (∀ tok u, bearerToken authHeader = some tok → verifyTok tok = some u →
      authenticateToken verifyTok authHeader = .proceed u) := by
  refine ⟨fun h => ?_, fun tok h hv => ?_, fun tok u h hv => ?_⟩
  · simp [authenticateToken, h, authStatus]
  · simp [authenticateToken, h, hv, authStatus]
  · simp [authenticateToken, h, hv]

/-- C8 witness: a missing header, a rejected token, an accepted token. -/
theorem authenticateToken_gate_witness :
    authenticateToken (fun t => if t = "good" then some 7 else none)
      (none : Option String) = .unauthenticated ∧
    authenticateToken (fun t => if t = "good" then some 7 else none)
      (some "Bearer bad") = .forbidden ∧
    authenticateToken (fun t => if t = "good" then some 7 else none)
      (some "Bearer good") = .proceed 7 :=
  ⟨((authenticateToken_gate (fun t => if t = "good" then some 7 else none)
      none).1 (by decide)).1,
   ((authenticateToken_gate (fun t => if t = "good" then some 7 else none)
      (some "Bearer bad")).2.1 "bad" (by decide) (by decide)).1,
   (authenticateToken_gate (fun t => if t = "good" then some 7 else none)
      (some "Bearer good")).2.2 "good" 7 (by decide) (by decide)⟩

/-- C9: both expiry tests use strict less-than, so at the instant
`now = expiresAt` the entry is still live: `verify` with the correct code
succeeds and `sweep` keeps the entry. -/
theorem expiry_boundary (m : Store) (hWF : WF m) (p : String) (e : Entry)
    (now : Nat) (hget : mapGet m p = some e) (heq : e.expiresAt = now) :
    (verify m now p e.code).1 = .success ∧
    mapGet (sweep m now) p = some e := by
  constructor
  · rw [verify_eq_some hget]
    simp [heq]
  · rw [mapGet_sweep hWF now p, hget]
    simp [heq]

/-- C9 witness at a concrete input. -/
theorem expiry_boundary_witness :
    (verify [("p", ⟨"123456", 42⟩)] 42 "p" (Entry.mk "123456" 42).code).1
      = .success ∧
    mapGet (sweep [("p", ⟨"123456", 42⟩)] 42) "p" = some ⟨"123456", 42⟩ :=
  expiry_boundary [("p", ⟨"123456", 42⟩)] (by decide) "p" ⟨"123456", 42⟩ 42
    (by decide) (by decide)

/-- C10: `issue` and `verify` on `p` leave every other key's entry exactly
as it was, and no operation mutates an entry in place: every entry of an
output store is an entry of the input store, except the single whole entry
written by `issue`. -/
theorem frame_property (m : Store) (now : Nat) (p q : String) (r : ℚ)
    (s : String) (hne : q ≠ p) :
    mapGet (issue m now p r).2 q = mapGet m q ∧
    mapGet (verify m now p s).2 q = mapGet m q ∧
    (∀ k e, (k, e) ∈ (issue m now p r).2 →
      (k, e) ∈ m ∨ (k = p ∧ e = ⟨(issue m now p r).1, now + 5 * 60 * 1000⟩)) ∧
    (∀ k e, (k, e) ∈ (verify m now p s).2 → (k, e) ∈ m) ∧
    (∀ k e, (k, e) ∈ sweep m now → (k, e) ∈ m) := by
  refine ⟨mapGet_set_ne m _ hne, ?_, ?_, ?_, ?_⟩
  · rcases verify_snd_eq_or m now p s with h | h
    · rw [h]
    · rw [h]
      exact mapGet_delete_ne m hne
  · intro k e hmem
    exact mem_mapSet hmem
  · intro k e hmem
    rcases verify_snd_eq_or m now p s with h | h
    · rwa [h] at hmem
    · rw [h] at hmem
      exact (mapDelete_sublist m p).subset hmem
  · intro k e hmem
    exact (sweep_sublist m now).subset hmem

/-- C10 witness at a concrete input. -/
theorem frame_property_witness :
    mapGet (issue [("q", ⟨"9", 3⟩)] 0 "p" 0).2 "q" =
      mapGet [("q", ⟨"9", 3⟩)] "q" ∧
    mapGet (verify [("q", ⟨"9", 3⟩)] 0 "p" "1").2 "q" =
      mapGet [("q", ⟨"9", 3⟩)] "q" ∧
    (∀ k e, (k, e) ∈ (issue [("q", ⟨"9", 3⟩)] 0 "p" 0).2 →
      (k, e) ∈ [("q", ⟨"9", 3⟩)] ∨
      (k = "p" ∧ e = ⟨(issue [("q", ⟨"9", 3⟩)] 0 "p" 0).1, 0 + 5 * 60 * 1000⟩)) ∧
    (∀ k e, (k, e) ∈ (verify [("q", ⟨"9", 3⟩)] 0 "p" "1").2 →
      (k, e) ∈ [("q", ⟨"9", 3⟩)]) ∧
    (∀ k e, (k, e) ∈ sweep [("q", ⟨"9", 3⟩)] 0 → (k, e) ∈ [("q", ⟨"9", 3⟩)]) :=
  frame_property [("q", ⟨"9", 3⟩)] 0 "p" "q" 0 "1" (by decide)

end Smssing
